import Mathlib

/-!
Verification of the simple-sat-solvers repository against its specification.

The repository ships the tests of its MiniSat-style CDCL engine
(src/test_minisat.py) and the dependency-graph driver
(src/simplesat/compute_dependencies.py).  The engine module itself
(Clause, Solver, value) is not part of the visible sources, so it is
modelled here from the specification (spec.md §3, §4.A–§4.E); the
dependency-graph helpers (package_lit_dependency_graph,
transitive_neighbors, Pool) are likewise modelled from §4.I.  The
visible source of compute_dependencies / compute_reverse_dependencies
is embedded directly.
-/

namespace SimpleSat

/-- Modelled from the spec: the helper value(lit, assignments) used by the
engine (imported by the tests from the missing minisat module).  A literal is
a nonzero signed integer; its value is the variable's three-valued assignment,
negated for a negative literal. -/
def value (lit : Int) (a : Nat → Option Bool) : Option Bool :=
  match a lit.natAbs with
  | none => none
  | some b => some (if 0 < lit then b else !b)

/-- Modelled from the spec: a clause is an ordered sequence of literals; the
two implicit watches are positions 0 and 1. -/
structure Clause where
  lits : List Int
deriving DecidableEq, Repr

/-- Modelled from the spec: calculate_reason(lit) returns the negations of the
clause's literals other than lit; the sentinel lit = 0 never occurs in a
clause, so it yields the negations of all literals. -/
def Clause.calculate_reason (c : Clause) (lit : Int) : List Int :=
  (c.lits.filter (fun l => l ≠ lit)).map (fun l => -l)

/-- Scan a literal list for the first literal whose value is not False,
splitting the list around it. -/
def findSplit (a : Nat → Option Bool) : List Int → Option (List Int × Int × List Int)
  | [] => none
  | x :: xs =>
    if value x a ≠ some false then some ([], x, xs)
    else match findSplit a xs with
         | some (pre, w, post) => some (x :: pre, w, post)
         | none => none

/-- Modelled from the spec: Clause.propagate(assignments, p), called when the
watched literal -p has just been falsified.  Contract (§4.A): ensure the False
watch is at position 0; if the other watch is True do nothing and return None;
otherwise scan positions 2.. for a non-False literal and swap it into position
0 returning None; otherwise return the literal at position 1 as the unit
implication (the caller detects the conflict when it is also False). -/
def Clause.propagate (c : Clause) (a : Nat → Option Bool) (p : Int) :
    Clause × Option Int :=
  match c.lits with
  | l0 :: l1 :: rest =>
    let m0 := if l1 = -p then l1 else l0
    let m1 := if l1 = -p then l0 else l1
    if value m1 a = some true then (⟨m0 :: m1 :: rest⟩, none)
    else match findSplit a rest with
         | some (pre, w, post) => (⟨w :: m1 :: (pre ++ m0 :: post)⟩, none)
         | none => (⟨m0 :: m1 :: rest⟩, some m1)
  | _ => (c, none)

/-- Modelled from the spec: the engine state (§3): clause store, watch index
keyed by the negation of each watched literal, three-valued assignment map,
decision levels, reasons, trail, trail limits, FIFO propagation queue, and
solver status.  Clauses are identified by their index in the store so that
watch-list entries share the mutable clause the way the Python object
references do. -/
structure Solver where
  clauses : List Clause
  watches : Int → List Nat
  assignments : Nat → Option Bool
  levels : Nat → Option Nat
  reason : Nat → Option Nat
  trail : List Int
  trail_lim : List Nat
  prop_queue : List Int
  status : Option Bool

/-- A fresh solver. -/
def initSolver : Solver :=
  { clauses := [], watches := fun _ => [], assignments := fun _ => none,
    levels := fun _ => none, reason := fun _ => none, trail := [],
    trail_lim := [], prop_queue := [], status := none }

/-- decision_level = len(trail_lim). -/
def Solver.decision_level (s : Solver) : Nat := s.trail_lim.length

/-- Pointwise update of a finite-map-as-function. -/
def updF {α : Type} [DecidableEq α] {β : Type} (f : α → β) (k : α) (v : β) :
    α → β :=
  fun x => if x = k then v else f x

/-- Append a clause id to the watch list stored at key k. -/
def addWatch (w : Int → List Nat) (k : Int) (cid : Nat) : Int → List Nat :=
  updF w k (w k ++ [cid])

/-- Modelled from the spec: enqueue(lit, reason) (§4.B).  If the variable is
already assigned, return True iff the existing value agrees with lit and
change nothing; otherwise set assignment, level and reason, append to the
trail and the propagation queue, and return True. -/
def Solver.enqueue (s : Solver) (lit : Int) (r : Option Nat) : Solver × Bool :=
  let v := lit.natAbs
  match s.assignments v with
  | some b => (s, b == decide (0 < lit))
  | none =>
    ({ s with
        assignments := updF s.assignments v (some (decide (0 < lit))),
        levels := updF s.levels v (some s.decision_level),
        reason := updF s.reason v r,
        trail := s.trail ++ [lit],
        prop_queue := s.prop_queue ++ [lit] }, true)

/-- Modelled from the spec: add_clause (§4.E and scenarios S4/S5): the empty
clause makes the solver UNSAT immediately; a unit clause is enqueued and never
stored or watched; a longer clause is stored and watched on its first two
literals, keyed by their negations. -/
def Solver.add_clause (s : Solver) (c : Clause) : Solver :=
  match c.lits with
  | [] => { s with status := some false }
  | [l] => (s.enqueue l none).1
  | l0 :: l1 :: _ =>
    let cid := s.clauses.length
    { s with clauses := s.clauses ++ [c],
             watches := addWatch (addWatch s.watches (-l0) cid) (-l1) cid }

/-- Modelled from the spec: assume(lit) (§4.B): push a new decision level and
enqueue lit as a decision (no reason). -/
def Solver.assume (s : Solver) (lit : Int) : Solver × Bool :=
  Solver.enqueue { s with trail_lim := s.trail_lim ++ [s.trail.length] } lit none

/-- Modelled from the spec: undo_one() (§4.B): pop the last trail entry and
clear its assignment, level and reason. -/
def Solver.undo_one (s : Solver) : Solver :=
  match s.trail.getLast? with
  | none => s
  | some p =>
    let v := p.natAbs
    { s with trail := s.trail.dropLast,
             assignments := updF s.assignments v none,
             levels := updF s.levels v none,
             reason := updF s.reason v none }

/-- Iterate undo_one. -/
def Solver.undoN (s : Solver) : Nat → Solver
  | 0 => s
  | n + 1 => (s.undo_one).undoN n

/-- Modelled from the spec: cancel() (§4.B): undo back to the start of the
current decision level and pop trail_lim. -/
def Solver.cancel (s : Solver) : Solver :=
  match s.trail_lim.getLast? with
  | none => s
  | some lim =>
    let s' := s.undoN (s.trail.length - lim)
    { s' with trail_lim := s'.trail_lim.dropLast }

/-- Modelled from the spec: the inner loop of propagate() (§4.C) over the
snapshotted watcher list of the popped literal p, iterated from the most
recently appended watcher (the list argument is the reversed snapshot).  A
watcher whose propagate returns None is re-inserted on the watch list of its
new position-0 watch's negation (the same list when no swap happened); a unit
result is enqueued with the clause as reason, and on a failed enqueue all
remaining watchers including the current one are re-appended, the queue is
drained and the clause is returned as the conflict. -/
def Solver.processWatchers (s : Solver) (p : Int) :
    List Nat → Solver × Option Nat
  | [] => (s, none)
  | cid :: rest =>
    let c := s.clauses.getD cid ⟨[]⟩
    let cr := c.propagate s.assignments p
    let s1 : Solver := { s with clauses := s.clauses.set cid cr.1 }
    match cr.2 with
    | none =>
      Solver.processWatchers
        { s1 with watches := addWatch s1.watches (-(cr.1.lits.headD 0)) cid }
        p rest
    | some u =>
      let eq := s1.enqueue u (some cid)
      if eq.2 then
        Solver.processWatchers
          { eq.1 with watches := addWatch eq.1.watches p cid } p rest
      else
        ({ eq.1 with
            watches := updF eq.1.watches p
              (eq.1.watches p ++ rest.reverse ++ [cid]),
            prop_queue := [] }, some cid)

/-- Modelled from the spec: propagate() (§4.C): while the FIFO queue is
nonempty, pop p, snapshot and clear the watch list stored at key p (the
watchers of the falsified literal -p) and dispatch them; fuel bounds the
number of queue pops. -/
def Solver.propagateAux : Solver → Nat → Solver × Option Nat
  | s, 0 => (s, none)
  | s, fuel + 1 =>
    match s.prop_queue with
    | [] => (s, none)
    | p :: q =>
      let ws := s.watches p
      let s1 : Solver := { s with prop_queue := q, watches := updF s.watches p [] }
      match Solver.processWatchers s1 p ws.reverse with
      | (s2, some cid) => (s2, some cid)
      | (s2, none) => Solver.propagateAux s2 fuel

/-- Total number of literal occurrences in the clause store. -/
def Solver.totalLits (s : Solver) : Nat :=
  (s.clauses.map (fun c => c.lits.length)).sum

/-- Modelled from the spec: propagate() with enough fuel for every scenario in
the test-suite (each pop beyond the initial queue is caused by a unit clause;
one unit per stored literal occurrence is a generous bound). -/
def Solver.propagate (s : Solver) : Solver × Option Nat :=
  s.propagateAux (s.prop_queue.length + s.totalLits + 1)

/-- Modelled from the spec: the marking pass of analyze (§4.D step 3): for
each literal q of the current reason whose variable is unseen, mark it; bump
the counter at the current decision level, otherwise accumulate its negation
into the learned set (at a positive level) and track the highest such level. -/
def Solver.processReasonLits (s : Solver) :
    List Int → List Nat → Nat → List Int → Nat → List Nat × Nat × List Int × Nat
  | [], seen, counter, learned, btl => (seen, counter, learned, btl)
  | q :: qs, seen, counter, learned, btl =>
    let v := q.natAbs
    if v ∈ seen then s.processReasonLits qs seen counter learned btl
    else
      match s.levels v with
      | some lv =>
        if lv = s.decision_level then
          s.processReasonLits qs (v :: seen) (counter + 1) learned btl
        else if 0 < lv then
          s.processReasonLits qs (v :: seen) counter (learned ++ [-q]) (max btl lv)
        else s.processReasonLits qs (v :: seen) counter learned btl
      | none => s.processReasonLits qs (v :: seen) counter learned btl

/-- Modelled from the spec: the backward trail walk of analyze (§4.D step 4):
pop trail entries, remembering each popped literal's reason before it is
cleared, until a seen variable surfaces; return the popped literal and its
reason. -/
def Solver.analyzeWalk : Solver → List Nat → Nat → Solver × Int × Option Nat
  | s, _, 0 => (s, 0, none)
  | s, seen, fuel + 1 =>
    match s.trail.getLast? with
    | none => (s, 0, none)
    | some p =>
      let r := s.reason p.natAbs
      let s' := s.undo_one
      if p.natAbs ∈ seen then (s', p, r)
      else s'.analyzeWalk seen fuel

/-- Modelled from the spec: the outer loop of analyze (§4.D steps 2–5):
resolve the current clause's reason into the mark set, walk back to the next
seen trail literal, unmark it and decrement the counter, stopping when the
counter reaches zero after the decrement (the pre-decrement reading of
"while counter > 1"). -/
def Solver.analyzeLoop :
    Solver → Option Nat → Int → List Nat → Nat → List Int → Nat → Nat →
      Solver × Int × List Int × Nat
  | s, _, p, _, _, learned, btl, 0 => (s, p, learned, btl)
  | s, cur, p, seen, counter, learned, btl, fuel + 1 =>
    let c := s.clauses.getD (cur.getD 0) ⟨[]⟩
    let rl := c.calculate_reason p
    let step := s.processReasonLits rl seen counter learned btl
    let walk := s.analyzeWalk step.1 s.trail.length
    let p1 := walk.2.1
    let seen2 := step.1.erase p1.natAbs
    let counter2 := step.2.1 - 1
    if counter2 = 0 then (walk.1, p1, step.2.2.1, step.2.2.2)
    else walk.1.analyzeLoop walk.2.2 p1 seen2 counter2 step.2.2.1 step.2.2.2 fuel

/-- Decision level of a literal's variable (0 if unassigned). -/
def Solver.litLevel (s : Solver) (l : Int) : Nat := (s.levels l.natAbs).getD 0

/-- Pick a literal of maximal decision level out of a list, returning it
together with the remaining literals. -/
def Solver.pickMax (s : Solver) : List Int → Option (Int × List Int)
  | [] => none
  | x :: xs =>
    match s.pickMax xs with
    | none => some (x, [])
    | some (m, rest) =>
      if s.litLevel x < s.litLevel m then some (m, x :: rest)
      else some (x, m :: rest)

/-- Modelled from the spec: analyze(conflict) (§4.D): first-UIP conflict
analysis.  Returns the state after the walk, the learned clause (asserting
literal first, then a highest-level learned literal) and the backjump
level. -/
def Solver.analyze (s : Solver) (conflict : Nat) : Solver × Clause × Nat :=
  let r := s.analyzeLoop (some conflict) 0 [] 0 [] 0 (s.trail.length + 1)
  match s.pickMax r.2.2.1 with
  | some (m, rest) => (r.1, ⟨-r.2.1 :: m :: rest⟩, r.2.2.2)
  | none => (r.1, ⟨[-r.2.1]⟩, r.2.2.2)

/-! ### The ZM01 scenario (Zhang–Madigan–Moskewicz–Malik 2001, Figure 2)

The clause set of scenario S1, optionally extended with the conflict clause
of S2, pre-assumed as in the test fixture zm01_solver. -/

/-- The ZM01 fixture: eight clauses (plus the S2 conflict clause when
requested), then assume(-6); enqueue(-17); assume(8); enqueue(-13);
assume(4); enqueue(19). -/
def zm01Solver (addConflict : Bool) : Solver :=
  let s := initSolver
  let s := s.add_clause ⟨[-12, 6, -11]⟩
  let s := s.add_clause ⟨[16, -11, 13]⟩
  let s := s.add_clause ⟨[-2, 12, -16]⟩
  let s := s.add_clause ⟨[-10, -4, 2]⟩
  let s := s.add_clause ⟨[1, -8, 10]⟩
  let s := s.add_clause ⟨[3, 10]⟩
  let s := s.add_clause ⟨[-5, 10]⟩
  let s := s.add_clause ⟨[18, 17, -1, -3, 5]⟩
  let s := if addConflict then s.add_clause ⟨[-18, -3, -19]⟩ else s
  let s := (s.assume (-6)).1
  let s := (s.enqueue (-17) none).1
  let s := (s.assume 8).1
  let s := (s.enqueue (-13) none).1
  let s := (s.assume 4).1
  let s := (s.enqueue 19 none).1
  s

/-- The ZM01 state after assume(11); used by S1/S2. -/
def zm01AfterAssume (addConflict : Bool) : Solver :=
  ((zm01Solver addConflict).assume 11).1

/-! ### The watched-literal bookkeeping invariant (§3, watch index) -/

/-- The watch-index contract for one stored clause: its id appears exactly
once on the list keyed by the negation of each of its two watched literals
(positions 0 and 1) and nowhere else; the clause has at least two distinct
literals. -/
def WClause (s : Solver) (cid : Nat) (c : Clause) : Prop :=
  c.lits.Nodup ∧ 2 ≤ c.lits.length ∧
  ∀ k : Int, (s.watches k).count cid =
    (if k = -(c.lits.getD 0 0) then 1 else 0) +
    (if k = -(c.lits.getD 1 0) then 1 else 0)

/-- Every watch-list entry denotes a stored clause. -/
def ValidW (s : Solver) : Prop :=
  ∀ k : Int, ∀ cid ∈ s.watches k, cid < s.clauses.length

/-- The watch-index invariant: every stored clause appears on exactly the
watch lists of its two watched literals' negations. -/
def WatchInv (s : Solver) : Prop :=
  ValidW s ∧ ∀ cid, cid < s.clauses.length → WClause s cid (s.clauses.getD cid ⟨[]⟩)

/-- Mid-propagation contract for a pending watcher of the falsified literal
-p: it watches -p, and its watch-list counts are one short at key p (the
snapshot was cleared). -/
def PendClause (s : Solver) (p : Int) (cid : Nat) (c : Clause) : Prop :=
  c.lits.Nodup ∧ 2 ≤ c.lits.length ∧
  (-p = c.lits.getD 0 0 ∨ -p = c.lits.getD 1 0) ∧
  ∀ k : Int, (s.watches k).count cid + (if k = p then 1 else 0) =
    (if k = -(c.lits.getD 0 0) then 1 else 0) +
    (if k = -(c.lits.getD 1 0) then 1 else 0)

/-- Invariant of the inner propagation loop: the pending watchers (still to be
dispatched) satisfy PendClause, every other stored clause satisfies its full
watch contract. -/
def PendState (s : Solver) (p : Int) (pend : List Nat) : Prop :=
  ValidW s ∧ pend.Nodup ∧ (∀ cid ∈ pend, cid < s.clauses.length) ∧
  ∀ cid, cid < s.clauses.length →
    (cid ∈ pend → PendClause s p cid (s.clauses.getD cid ⟨[]⟩)) ∧
    (cid ∉ pend → WClause s cid (s.clauses.getD cid ⟨[]⟩))

/-- The fixture of test_propagate_conflict: clauses (-1, 2) and (-1, 2, 3, 4),
variable 1 True, variable 2 forced False with -2 queued. -/
def conflictFixture : Solver :=
  let s := initSolver
  let s := s.add_clause ⟨[-1, 2]⟩
  let s := s.add_clause ⟨[-1, 2, 3, 4]⟩
  { s with
      assignments := fun v =>
        if v = 1 then some true else if v = 2 then some false else none,
      prop_queue := [-2] }

/-- The fixture of test_enqueue: variable 1 assigned True, variable 2
unassigned. -/
def assignedFixture : Solver :=
  { initSolver with
      assignments := fun v => if v = 1 then some true else none }

/-! ### Dependency-graph utilities (§4.I) and compute_dependencies -/

/-- Modelled from the spec: the Pool of §4.I restricted to what the graph
utilities consume: the allocated package ids (the keys of _id_to_package_,
packages identified with their ids through the Pool bijection), the
dependency requirements of each package, and what_provides for every
requirement. -/
structure Pool where
  package_ids : List Nat
  package_deps : Nat → List Nat
  provides : Nat → List Nat

/-- Modelled from the spec: package_lit_dependency_graph (§4.I): edge u → v
iff v is in some what_provides of some dependency of the package with id
u. -/
def package_lit_dependency_graph (pool : Pool) (u : Nat) : List Nat :=
  (pool.package_deps u).flatMap pool.provides

/-- One closure step: the current node set together with all successors. -/
def stepClose (g : Nat → List Nat) (cur : List Nat) : List Nat :=
  (cur ++ cur.flatMap g).dedup

/-- Iterated closure steps starting from a node list. -/
def closeN (g : Nat → List Nat) (start : List Nat) : Nat → List Nat
  | 0 => start.dedup
  | k + 1 => stepClose g (closeN g start k)

/-- Modelled from the spec: transitive_neighbors (§4.I): the nodes reachable
from n in at least one step, computed by saturating the one-step image;
|package_ids| + 1 rounds reach the fixpoint when the graph lives on the
pool's package ids. -/
def transitive_neighbors (pool : Pool) (g : Nat → List Nat) (n : Nat) : List Nat :=
  closeN g (g n) (pool.package_ids.length + 1)

/-- compute_dependencies (src/simplesat/compute_dependencies.py): the union
over what_provides(requirement) of the transitive neighbors in the dependency
graph, as a deduplicated list standing for the returned set. -/
def compute_dependencies (pool : Pool) (req : Nat) : List Nat :=
  ((pool.provides req).flatMap
    (fun p => transitive_neighbors pool (package_lit_dependency_graph pool) p)).dedup

/-- The reversed_graph built by compute_reverse_dependencies: key v maps to
the packages whose transitive neighbors contain v (the code inverts the
transitive closure, iterating the neighbors dict whose keys are the pool's
package ids). -/
def reversed_neighbors (pool : Pool) (v : Nat) : List Nat :=
  pool.package_ids.filter
    (fun key => v ∈ transitive_neighbors pool (package_lit_dependency_graph pool) key)

/-- compute_reverse_dependencies (src/simplesat/compute_dependencies.py). -/
def compute_reverse_dependencies (pool : Pool) (req : Nat) : List Nat :=
  ((pool.provides req).flatMap (fun p => reversed_neighbors pool p)).dedup

/-- Modelled from the spec: the spec-side prescription for reverse
dependencies inverts the edge set before computing the closure: the inverted
graph has edge v → u iff u → v is a dependency edge (u ranging over the
pool's package ids). -/
def invGraph (pool : Pool) (g : Nat → List Nat) (v : Nat) : List Nat :=
  pool.package_ids.filter (fun u => v ∈ g u)

/-- The edge relation of a successor-list graph. -/
def edgeRel (g : Nat → List Nat) (u v : Nat) : Prop := v ∈ g u

/-- A two-package pool: package 1 has one requirement (index 0) provided by
package 2; requirement 10 is provided exactly by package 2 and requirement 11
exactly by package 1. -/
def samplePool : Pool :=
  { package_ids := [1, 2],
    package_deps := fun u => if u = 1 then [0] else [],
    provides := fun r =>
      if r = 0 then [2] else if r = 10 then [2] else
      if r = 11 then [1] else [] }

/-! ### Helper lemmas and claim theorems -/

theorem findSplit_some (a : Nat → Option Bool) :
    ∀ (l pre post : List Int) (w : Int), findSplit a l = some (pre, w, post) →
      l = pre ++ w :: post ∧ value w a ≠ some false ∧
      ∀ x ∈ pre, value x a = some false := by
  intro l
  induction l with
  | nil => intro pre post w h; simp [findSplit] at h
  | cons x xs ih =>
    intro pre post w h
    rw [findSplit] at h
    split at h
    · rename_i hx
      simp only [Option.some.injEq, Prod.mk.injEq] at h
      obtain ⟨h1, h2, h3⟩ := h
      subst h1; subst h2; subst h3
      exact ⟨rfl, hx, by simp⟩
    · rename_i hx
      rw [not_not] at hx
      split at h
      · rename_i pre' w' post' hfs
        simp only [Option.some.injEq, Prod.mk.injEq] at h
        obtain ⟨h1, h2, h3⟩ := h
        subst h1; subst h2; subst h3
        obtain ⟨e1, e2, e3⟩ := ih pre' post' w' hfs
        refine ⟨by simp [e1], e2, ?_⟩
        intro y hy
        rcases List.mem_cons.mp hy with hy | hy
        · subst hy; exact hx
        · exact e3 y hy
      · exact absurd h (by simp)

theorem findSplit_none (a : Nat → Option Bool) :
    ∀ l : List Int, findSplit a l = none → ∀ x ∈ l, value x a = some false := by
  intro l
  induction l with
  | nil => intro _ x hx; simp at hx
  | cons y ys ih =>
    intro h x hx
    rw [findSplit] at h
    split at h
    · exact absurd h (by simp)
    · rename_i hy
      rw [not_not] at hy
      split at h
      · exact absurd h (by simp)
      · rename_i hfs
        rcases List.mem_cons.mp hx with hx | hx
        · subst hx; exact hy
        · exact ih hfs x hx

theorem Clause.propagate_cases (c : Clause) (a : Nat → Option Bool)
    (p l0 l1 : Int) (rest : List Int) (hl : c.lits = l0 :: l1 :: rest)
    (hp : -p = l0 ∨ -p = l1) :
    ∃ m0 m1, m0 = -p ∧ ((m0 = l0 ∧ m1 = l1) ∨ (m0 = l1 ∧ m1 = l0)) ∧
      ((value m1 a = some true ∧ c.propagate a p = (⟨m0 :: m1 :: rest⟩, none)) ∨
       (∃ pre w post, rest = pre ++ w :: post ∧ value m1 a ≠ some true ∧
          value w a ≠ some false ∧ (∀ x ∈ pre, value x a = some false) ∧
          c.propagate a p = (⟨w :: m1 :: (pre ++ m0 :: post)⟩, none)) ∨
       ((∀ x ∈ rest, value x a = some false) ∧ value m1 a ≠ some true ∧
          c.propagate a p = (⟨m0 :: m1 :: rest⟩, some m1))) := by
  by_cases h1 : l1 = -p
  · have hprop : c.propagate a p =
        (if value l0 a = some true then (⟨l1 :: l0 :: rest⟩, none)
         else match findSplit a rest with
              | some (pre, w, post) => (⟨w :: l0 :: (pre ++ l1 :: post)⟩, none)
              | none => (⟨l1 :: l0 :: rest⟩, some l0)) := by
      rw [Clause.propagate, hl]
      simp only [if_pos h1]
    refine ⟨l1, l0, h1, Or.inr ⟨rfl, rfl⟩, ?_⟩
    by_cases hv : value l0 a = some true
    · exact Or.inl ⟨hv, by rw [hprop, if_pos hv]⟩
    · rw [if_neg hv] at hprop
      cases hfs : findSplit a rest with
      | some t =>
        obtain ⟨pre, w, post⟩ := t
        obtain ⟨e1, e2, e3⟩ := findSplit_some a rest pre post w hfs
        refine Or.inr (Or.inl ⟨pre, w, post, e1, hv, e2, e3, ?_⟩)
        rw [hprop, hfs]
      | none =>
        refine Or.inr (Or.inr ⟨findSplit_none a rest hfs, hv, ?_⟩)
        rw [hprop, hfs]
  · have h0 : l0 = -p := by
      rcases hp with hp | hp
      · exact hp.symm
      · exact absurd hp.symm h1
    have hprop : c.propagate a p =
        (if value l1 a = some true then (⟨l0 :: l1 :: rest⟩, none)
         else match findSplit a rest with
              | some (pre, w, post) => (⟨w :: l1 :: (pre ++ l0 :: post)⟩, none)
              | none => (⟨l0 :: l1 :: rest⟩, some l1)) := by
      rw [Clause.propagate, hl]
      simp only [if_neg h1]
    refine ⟨l0, l1, h0, Or.inl ⟨rfl, rfl⟩, ?_⟩
    by_cases hv : value l1 a = some true
    · exact Or.inl ⟨hv, by rw [hprop, if_pos hv]⟩
    · rw [if_neg hv] at hprop
      cases hfs : findSplit a rest with
      | some t =>
        obtain ⟨pre, w, post⟩ := t
        obtain ⟨e1, e2, e3⟩ := findSplit_some a rest pre post w hfs
        refine Or.inr (Or.inl ⟨pre, w, post, e1, hv, e2, e3, ?_⟩)
        rw [hprop, hfs]
      | none =>
        refine Or.inr (Or.inr ⟨findSplit_none a rest hfs, hv, ?_⟩)
        rw [hprop, hfs]

end SimpleSat
namespace SimpleSat

set_option maxRecDepth 4000

/-- C8: add_clause([]) sets the solver status to UNSAT immediately; no
enqueue occurs, no clause is added to the clause store, and no watch-index
entry is created. -/
theorem claim_C8_add_empty_clause (s : Solver) :
    (s.add_clause ⟨[]⟩).status = some false ∧
    (s.add_clause ⟨[]⟩).clauses = s.clauses ∧
    (s.add_clause ⟨[]⟩).watches = s.watches ∧
    (s.add_clause ⟨[]⟩).trail = s.trail ∧
    (s.add_clause ⟨[]⟩).prop_queue = s.prop_queue ∧
    (s.add_clause ⟨[]⟩).assignments = s.assignments :=
  ⟨rfl, rfl, rfl, rfl, rfl, rfl⟩

/-- C10: add_clause of a single-literal clause enqueues the literal but
leaves the clause store, the watch index and the status unchanged. -/
theorem claim_C10_add_unit_clause (s : Solver) (l : Int)
    (h : s.assignments l.natAbs = none) :
    (s.add_clause ⟨[l]⟩).clauses = s.clauses ∧
    (s.add_clause ⟨[l]⟩).watches = s.watches ∧
    (s.add_clause ⟨[l]⟩).status = s.status ∧
    (s.add_clause ⟨[l]⟩).trail = s.trail ++ [l] ∧
    (s.add_clause ⟨[l]⟩).prop_queue = s.prop_queue ++ [l] ∧
    (s.add_clause ⟨[l]⟩).assignments l.natAbs = some (decide (0 < l)) := by
  simp [Solver.add_clause, Solver.enqueue, h, updF]

theorem claim_C10_witness :
    (initSolver.assignments (Int.natAbs (-1)) = none) ∧
    ((initSolver.add_clause ⟨[-1]⟩).clauses = initSolver.clauses ∧
     (initSolver.add_clause ⟨[-1]⟩).watches = initSolver.watches ∧
     (initSolver.add_clause ⟨[-1]⟩).status = initSolver.status ∧
     (initSolver.add_clause ⟨[-1]⟩).trail = initSolver.trail ++ [-1] ∧
     (initSolver.add_clause ⟨[-1]⟩).prop_queue = initSolver.prop_queue ++ [-1] ∧
     (initSolver.add_clause ⟨[-1]⟩).assignments (Int.natAbs (-1)) =
       some (decide (0 < (-1 : Int)))) :=
  ⟨rfl, claim_C10_add_unit_clause initSolver (-1) rfl⟩

/-- C9: calculate_reason(lit) returns the negations of the clause's literals
other than lit; for lit = 0 (conflict-source case) on a clause of nonzero
literals it is the negation of every literal. -/
theorem claim_C9_calculate_reason (c : Clause) (lit : Int) :
    (∀ x : Int, x ∈ c.calculate_reason lit ↔ -x ∈ c.lits ∧ -x ≠ lit) ∧
    (lit = 0 → (∀ l ∈ c.lits, l ≠ 0) →
      c.calculate_reason lit = c.lits.map (fun l => -l)) := by
  constructor
  · intro x
    simp only [Clause.calculate_reason, List.mem_map, List.mem_filter,
      decide_eq_true_eq]
    constructor
    · rintro ⟨l, ⟨hm, hne⟩, hx⟩
      subst hx
      simpa using ⟨hm, hne⟩
    · rintro ⟨hm, hne⟩
      exact ⟨-x, ⟨hm, hne⟩, by ring⟩
  · intro h0 hnz
    subst h0
    unfold Clause.calculate_reason
    rw [List.filter_eq_self.mpr]
    intro a ha
    simpa using hnz a ha

theorem claim_C9_witness :
    ((3 : Int) ∈ (⟨[1, -2, 5]⟩ : Clause).calculate_reason 0 ↔
      -(3 : Int) ∈ [(1 : Int), -2, 5] ∧ -(3 : Int) ≠ 0) ∧
    ((⟨[1, -2, 5]⟩ : Clause).calculate_reason 0 =
      [(1 : Int), -2, 5].map (fun l => -l)) :=
  ⟨(claim_C9_calculate_reason ⟨[1, -2, 5]⟩ 0).1 3,
   (claim_C9_calculate_reason ⟨[1, -2, 5]⟩ 0).2 rfl (by decide)⟩

/-- C6: enqueue(lit): on an already-assigned variable it changes no state and
returns True iff the existing assignment agrees with lit's polarity; on an
unassigned variable it sets assignment, level and reason, appends lit to the
trail and the propagation queue, and returns True. -/
theorem claim_C6_enqueue (s : Solver) (lit : Int) (r : Option Nat) :
    (∀ b, s.assignments lit.natAbs = some b →
      (s.enqueue lit r).1 = s ∧
      ((s.enqueue lit r).2 = true ↔ value lit s.assignments = some true)) ∧
    (s.assignments lit.natAbs = none →
      (s.enqueue lit r).2 = true ∧
      (s.enqueue lit r).1.assignments lit.natAbs = some (decide (0 < lit)) ∧
      (s.enqueue lit r).1.levels lit.natAbs = some s.decision_level ∧
      (s.enqueue lit r).1.reason lit.natAbs = r ∧
      (s.enqueue lit r).1.trail = s.trail ++ [lit] ∧
      (s.enqueue lit r).1.prop_queue = s.prop_queue ++ [lit] ∧
      (∀ v, v ≠ lit.natAbs → (s.enqueue lit r).1.assignments v = s.assignments v)) := by
  constructor
  · intro b hb
    refine ⟨by simp [Solver.enqueue, hb], ?_⟩
    by_cases hpos : (0 : Int) < lit
    · simp [Solver.enqueue, hb, value, hpos]
    · simp [Solver.enqueue, hb, value, hpos]
  · intro hn
    simp only [Solver.enqueue, hn]
    refine ⟨by trivial, by simp [updF], by simp [updF], by simp [updF],
      by trivial, by trivial, ?_⟩
    intro v hv
    simp [updF, hv]

/-- C7: assume(l) followed by cancel() restores the assignment map, the
trail, trail_lim and the decision level exactly, provided l's variable was
unassigned. -/
theorem claim_C7_assume_cancel (s : Solver) (l : Int)
    (h : s.assignments l.natAbs = none) :
    ((s.assume l).1.cancel).assignments = s.assignments ∧
    ((s.assume l).1.cancel).trail = s.trail ∧
    ((s.assume l).1.cancel).trail_lim = s.trail_lim ∧
    ((s.assume l).1.cancel).decision_level = s.decision_level := by
  have hassume : (s.assume l).1 = { s with
      assignments := updF s.assignments l.natAbs (some (decide (0 < l))),
      levels := updF s.levels l.natAbs (some (s.trail_lim.length + 1)),
      reason := updF s.reason l.natAbs none,
      trail := s.trail ++ [l],
      trail_lim := s.trail_lim ++ [s.trail.length],
      prop_queue := s.prop_queue ++ [l] } := by
    simp [Solver.assume, Solver.enqueue, h, Solver.decision_level]
  rw [hassume]
  have hlen : (s.trail ++ [l]).length - s.trail.length = 1 := by simp
  simp only [Solver.cancel, List.getLast?_concat, hlen, Solver.undoN,
    Solver.undo_one, List.dropLast_concat]
  refine ⟨?_, by trivial, by simp, by simp [Solver.decision_level]⟩
  funext v
  by_cases hv : v = l.natAbs
  · subst hv; simp [updF, h]
  · simp [updF, hv]

theorem claim_C6_witness :
    (((assignedFixture.enqueue (-1) none).1 = assignedFixture ∧
       ((assignedFixture.enqueue (-1) none).2 = true ↔
         value (-1) assignedFixture.assignments = some true)) ∧
     ((assignedFixture.enqueue 2 none).2 = true ∧
      (assignedFixture.enqueue 2 none).1.assignments (Int.natAbs 2) =
        some (decide ((0 : Int) < 2)) ∧
      (assignedFixture.enqueue 2 none).1.levels (Int.natAbs 2) =
        some assignedFixture.decision_level ∧
      (assignedFixture.enqueue 2 none).1.reason (Int.natAbs 2) = none ∧
      (assignedFixture.enqueue 2 none).1.trail = assignedFixture.trail ++ [2] ∧
      (assignedFixture.enqueue 2 none).1.prop_queue =
        assignedFixture.prop_queue ++ [2] ∧
      (∀ v, v ≠ Int.natAbs 2 →
        (assignedFixture.enqueue 2 none).1.assignments v =
          assignedFixture.assignments v))) :=
  ⟨(claim_C6_enqueue assignedFixture (-1) none).1 true rfl,
   (claim_C6_enqueue assignedFixture 2 none).2 rfl⟩

theorem claim_C7_witness :
    ((assignedFixture.assume (-2)).1.cancel).assignments =
      assignedFixture.assignments ∧
    ((assignedFixture.assume (-2)).1.cancel).trail = assignedFixture.trail ∧
    ((assignedFixture.assume (-2)).1.cancel).trail_lim =
      assignedFixture.trail_lim ∧
    ((assignedFixture.assume (-2)).1.cancel).decision_level =
      assignedFixture.decision_level :=
  claim_C7_assume_cancel assignedFixture (-2) rfl

/-- C4 counterexample: with clause (1, -2, 5), variable 1 False, variable 2
False (so the other watch -2 is True) and variable 5 unassigned, the literal 5
at position 2 is not assigned False, yet Clause.propagate swaps nothing and
returns None with the clause unchanged — refuting the claim that a non-False
literal at positions 2..n is always swapped into position 0. -/
theorem claim_C4_counterexample :
    value 5 (fun v => if v = 1 then some false
                      else if v = 2 then some false else none) ≠ some false ∧
    (⟨[1, -2, 5]⟩ : Clause).propagate
        (fun v => if v = 1 then some false
                  else if v = 2 then some false else none) (-1) =
      (⟨[1, -2, 5]⟩, none) := by
  decide

/-- C4 (amended): Clause.propagate with falsified_lit the negation of one of
the two watched literals first ensures the False watch is at position 0 (m0
below); if the other watch m1 is True it returns None with no further change;
otherwise if some literal at positions 2..n is not assigned False the first
such literal is swapped into position 0 and None is returned; otherwise the
literal at position 1 is returned as the unit implication (conflict detection
being left to the caller when it is also False). -/
theorem claim_C4_propagate (c : Clause) (a : Nat → Option Bool)
    (p l0 l1 : Int) (rest : List Int) (hl : c.lits = l0 :: l1 :: rest)
    (hp : -p = l0 ∨ -p = l1) :
    ∃ m0 m1, m0 = -p ∧ ((m0 = l0 ∧ m1 = l1) ∨ (m0 = l1 ∧ m1 = l0)) ∧
      ((value m1 a = some true ∧ c.propagate a p = (⟨m0 :: m1 :: rest⟩, none)) ∨
       (∃ pre w post, rest = pre ++ w :: post ∧ value m1 a ≠ some true ∧
          value w a ≠ some false ∧ (∀ x ∈ pre, value x a = some false) ∧
          c.propagate a p = (⟨w :: m1 :: (pre ++ m0 :: post)⟩, none)) ∨
       ((∀ x ∈ rest, value x a = some false) ∧ value m1 a ≠ some true ∧
          c.propagate a p = (⟨m0 :: m1 :: rest⟩, some m1))) :=
  Clause.propagate_cases c a p l0 l1 rest hl hp

theorem claim_C4_witness :
    ∃ m0 m1, m0 = -(-1 : Int) ∧
      ((m0 = 1 ∧ m1 = -2) ∨ (m0 = -2 ∧ m1 = 1)) ∧
      ((value m1 (fun v => if v = 1 then some false else none) = some true ∧
         (⟨[1, -2, 5]⟩ : Clause).propagate
           (fun v => if v = 1 then some false else none) (-1) =
           (⟨m0 :: m1 :: [5]⟩, none)) ∨
       (∃ pre w post, [(5 : Int)] = pre ++ w :: post ∧
          value m1 (fun v => if v = 1 then some false else none) ≠ some true ∧
          value w (fun v => if v = 1 then some false else none) ≠ some false ∧
          (∀ x ∈ pre, value x (fun v => if v = 1 then some false else none) =
            some false) ∧
          (⟨[1, -2, 5]⟩ : Clause).propagate
            (fun v => if v = 1 then some false else none) (-1) =
            (⟨w :: m1 :: (pre ++ m0 :: post)⟩, none)) ∨
       ((∀ x ∈ [(5 : Int)],
          value x (fun v => if v = 1 then some false else none) = some false) ∧
         value m1 (fun v => if v = 1 then some false else none) ≠ some true ∧
         (⟨[1, -2, 5]⟩ : Clause).propagate
           (fun v => if v = 1 then some false else none) (-1) =
           (⟨m0 :: m1 :: [5]⟩, some m1))) :=
  claim_C4_propagate ⟨[1, -2, 5]⟩ (fun v => if v = 1 then some false else none)
    (-1) 1 (-2) [5] rfl (Or.inl (by decide))

/-- C1: on the ZM01 clause set extended with (-18, -3, -19), after the fixture
pre-assumptions, assume(11); propagate() returns the added clause (id 8) as
the conflict, and analyze yields the learned literals {-8, 10, 17, -19} with
backjump level 3. -/
theorem claim_C1_analyze_zm01 :
    (zm01AfterAssume true).propagate.2 = some 8 ∧
    ((zm01AfterAssume true).propagate.1.clauses.getD 8 ⟨[]⟩).lits.Perm
      [-18, -3, -19] ∧
    ((zm01AfterAssume true).propagate.1.analyze 8).2.1.lits.Perm
      [-8, 10, 17, -19] ∧
    ((zm01AfterAssume true).propagate.1.analyze 8).2.2 = 3 := by
  decide

/-- C3: on the eight-clause ZM01 set (S1), after the fixture pre-assumptions,
assume(11); propagate() reports no conflict and the level-4 trail segment is
exactly {11, -12, 16, -2, -10, 1, 3, -5, 18}. -/
theorem claim_C3_propagate_zm01 :
    (zm01AfterAssume false).propagate.2 = none ∧
    (zm01AfterAssume false).propagate.1.trail_lim = [0, 2, 4, 6] ∧
    ((zm01AfterAssume false).propagate.1.trail.drop
        ((zm01AfterAssume false).propagate.1.trail_lim.getLast?.getD 0)).Perm
      [11, -12, 16, -2, -10, 1, 3, -5, 18] := by
  decide

/-! ### Closure correctness for the graph utilities -/

theorem mem_stepClose (g : Nat → List Nat) (cur : List Nat) (x : Nat) :
    x ∈ stepClose g cur ↔ x ∈ cur ∨ ∃ u ∈ cur, x ∈ g u := by
  simp [stepClose, List.mem_dedup, List.mem_append, List.mem_flatMap]

theorem closeN_subset_succ (g : Nat → List Nat) (start : List Nat) (k : Nat) :
    closeN g start k ⊆ closeN g start (k + 1) := by
  intro x hx
  rw [closeN, mem_stepClose]
  exact Or.inl hx

theorem closeN_subset (g : Nat → List Nat) (start : List Nat) {k k' : Nat}
    (h : k ≤ k') : closeN g start k ⊆ closeN g start k' := by
  induction h with
  | refl => exact fun x hx => hx
  | step h ih => exact fun x hx => closeN_subset_succ g start _ (ih hx)

theorem closeN_nodup (g : Nat → List Nat) (start : List Nat) (k : Nat) :
    (closeN g start k).Nodup := by
  cases k with
  | zero => exact List.nodup_dedup start
  | succ k => exact List.nodup_dedup _

theorem closeN_sound (g : Nat → List Nat) (start : List Nat) :
    ∀ k x, x ∈ closeN g start k →
      ∃ u ∈ start, Relation.ReflTransGen (edgeRel g) u x := by
  intro k
  induction k with
  | zero =>
    intro x hx
    rw [closeN, List.mem_dedup] at hx
    exact ⟨x, hx, Relation.ReflTransGen.refl⟩
  | succ k ih =>
    intro x hx
    rw [closeN, mem_stepClose] at hx
    rcases hx with hx | ⟨u, hu, hx⟩
    · exact ih x hx
    · obtain ⟨u0, hu0, hr⟩ := ih u hu
      exact ⟨u0, hu0, hr.tail hx⟩

theorem closeN_subset_ids (g : Nat → List Nat) (start : List Nat)
    (ids : List Nat) (hg : ∀ u v, v ∈ g u → v ∈ ids)
    (hstart : ∀ x ∈ start, x ∈ ids) :
    ∀ k x, x ∈ closeN g start k → x ∈ ids := by
  intro k
  induction k with
  | zero =>
    intro x hx
    rw [closeN, List.mem_dedup] at hx
    exact hstart x hx
  | succ k ih =>
    intro x hx
    rw [closeN, mem_stepClose] at hx
    rcases hx with hx | ⟨u, _, hx⟩
    · exact ih x hx
    · exact hg u x hx

theorem closeN_length_le (g : Nat → List Nat) (start : List Nat) (k : Nat) :
    (closeN g start k).length ≤ (closeN g start (k + 1)).length :=
  ((closeN_nodup g start k).subperm (closeN_subset_succ g start k)).length_le

theorem closeN_growth (g : Nat → List Nat) (start : List Nat) (K : Nat)
    (h : ∀ k, k < K → (closeN g start k).length < (closeN g start (k + 1)).length) :
    K ≤ (closeN g start K).length := by
  induction K with
  | zero => exact Nat.zero_le _
  | succ K ih =>
    have h1 := h K (Nat.lt_succ_self K)
    have h2 := ih (fun k hk => h k (Nat.lt_succ_of_lt hk))
    omega

theorem closeN_stable (g : Nat → List Nat) (start : List Nat) (ids : List Nat)
    (hg : ∀ u v, v ∈ g u → v ∈ ids) (hstart : ∀ x ∈ start, x ∈ ids) :
    ∃ k, k ≤ ids.length ∧
      ∀ x, x ∈ closeN g start (k + 1) ↔ x ∈ closeN g start k := by
  by_contra hcon
  push_neg at hcon
  have hgrow : ∀ k, k < ids.length + 1 →
      (closeN g start k).length < (closeN g start (k + 1)).length := by
    intro k hk
    rcases Nat.lt_or_ge (closeN g start k).length (closeN g start (k + 1)).length
      with h | h
    · exact h
    · exfalso
      have hsub : List.Subperm (closeN g start k) (closeN g start (k + 1)) :=
        (closeN_nodup g start k).subperm (closeN_subset_succ g start k)
      have hperm := hsub.perm_of_length_le h
      obtain ⟨x, hx⟩ := hcon k (Nat.lt_succ_iff.mp hk)
      rcases hx with ⟨h1, h2⟩ | ⟨h1, h2⟩
      · exact h2 (hperm.symm.subset h1)
      · exact h1 (closeN_subset_succ g start k h2)
  have hK := closeN_growth g start (ids.length + 1) hgrow
  have hbound : (closeN g start (ids.length + 1)).length ≤ ids.length :=
    ((closeN_nodup g start _).subperm
      (fun x hx => closeN_subset_ids g start ids hg hstart _ x hx)).length_le
  omega

theorem tn_complete (pool : Pool) (g : Nat → List Nat)
    (hg : ∀ u v, v ∈ g u → v ∈ pool.package_ids) (n v : Nat)
    (h : Relation.TransGen (edgeRel g) n v) :
    v ∈ transitive_neighbors pool g n := by
  obtain ⟨k, hk, hstab⟩ :=
    closeN_stable g (g n) pool.package_ids hg (fun x hx => hg n x hx)
  have hclosed : ∀ u, u ∈ closeN g (g n) k → ∀ x, x ∈ g u →
      x ∈ closeN g (g n) k := by
    intro u hu x hx
    exact (hstab x).mp (by rw [closeN, mem_stepClose]; exact Or.inr ⟨u, hu, hx⟩)
  have hS : v ∈ closeN g (g n) k := by
    induction h with
    | single h1 =>
      exact closeN_subset g (g n) (Nat.zero_le k)
        (by rw [closeN, List.mem_dedup]; exact h1)
    | tail _ h1 ih => exact hclosed _ ih _ h1
  exact closeN_subset g (g n) (Nat.le_succ_of_le hk) hS

theorem tn_sound (pool : Pool) (g : Nat → List Nat) (n v : Nat)
    (h : v ∈ transitive_neighbors pool g n) :
    Relation.TransGen (edgeRel g) n v := by
  obtain ⟨u, hu, hr⟩ := closeN_sound g (g n) _ v h
  exact Relation.TransGen.head' hu hr

theorem tn_mem_iff (pool : Pool) (g : Nat → List Nat)
    (hg : ∀ u v, v ∈ g u → v ∈ pool.package_ids) (n v : Nat) :
    v ∈ transitive_neighbors pool g n ↔ Relation.TransGen (edgeRel g) n v :=
  ⟨tn_sound pool g n v, tn_complete pool g hg n v⟩

theorem transGen_target_mem (g : Nat → List Nat) (ids : List Nat)
    (hg : ∀ u v, v ∈ g u → v ∈ ids) (x y : Nat)
    (h : Relation.TransGen (edgeRel g) x y) : y ∈ ids := by
  induction h with
  | single h1 => exact hg _ _ h1
  | tail _ h1 _ => exact hg _ _ h1

theorem transGen_invGraph (pool : Pool) (g : Nat → List Nat)
    (hg : ∀ u v, v ∈ g u → v ∈ pool.package_ids) (a b : Nat)
    (hb : b ∈ pool.package_ids) :
    Relation.TransGen (edgeRel (invGraph pool g)) a b ↔
      Relation.TransGen (edgeRel g) b a := by
  constructor
  · intro h
    refine Relation.transGen_swap.mp (Relation.TransGen.mono ?_ h)
    intro x y hxy
    rw [edgeRel, invGraph, List.mem_filter] at hxy
    exact (of_decide_eq_true hxy.2 : x ∈ g y)
  · intro h
    induction h with
    | single h1 =>
      refine Relation.TransGen.single ?_
      rw [edgeRel, invGraph, List.mem_filter]
      exact ⟨hb, decide_eq_true h1⟩
    | tail hbc h1 ih =>
      refine Relation.TransGen.head ?_ ih
      rw [edgeRel, invGraph, List.mem_filter]
      exact ⟨transGen_target_mem g pool.package_ids hg _ _ hbc,
        decide_eq_true h1⟩

/-- C5: for packages P and Q of the pool (with requirements providing exactly
P and exactly Q), compute_reverse_dependencies contains Q iff
compute_dependencies contains P; and the spec's prescription (invert the edge
set, then close transitively) agrees with the code (invert the transitive
closure). -/
theorem claim_C5_reverse_dependencies (pool : Pool) (reqP reqQ P Q : Nat)
    (hP : pool.provides reqP = [P]) (hQ : pool.provides reqQ = [Q])
    (_hPmem : P ∈ pool.package_ids) (hQmem : Q ∈ pool.package_ids)
    (hg : ∀ u v, v ∈ package_lit_dependency_graph pool u →
      v ∈ pool.package_ids) :
    (Q ∈ compute_reverse_dependencies pool reqP ↔
      P ∈ compute_dependencies pool reqQ) ∧
    (Q ∈ transitive_neighbors pool
        (invGraph pool (package_lit_dependency_graph pool)) P ↔
      P ∈ transitive_neighbors pool (package_lit_dependency_graph pool) Q) := by
  have hinv : ∀ u v,
      v ∈ invGraph pool (package_lit_dependency_graph pool) u →
        v ∈ pool.package_ids := by
    intro u v hv
    exact (List.mem_filter.mp hv).1
  constructor
  · rw [compute_reverse_dependencies, compute_dependencies, hP, hQ]
    simp only [List.flatMap_cons, List.flatMap_nil, List.append_nil,
      List.mem_dedup]
    rw [reversed_neighbors, List.mem_filter]
    simp only [decide_eq_true_eq]
    exact ⟨fun hx => hx.2, fun hx => ⟨hQmem, hx⟩⟩
  · rw [tn_mem_iff pool _ hinv P Q,
      tn_mem_iff pool _ hg Q P,
      transGen_invGraph pool _ hg P Q hQmem]

theorem claim_C5_witness :
    ((1 : Nat) ∈ compute_reverse_dependencies samplePool 10 ↔
      (2 : Nat) ∈ compute_dependencies samplePool 11) ∧
    ((1 : Nat) ∈ transitive_neighbors samplePool
        (invGraph samplePool (package_lit_dependency_graph samplePool)) 2 ↔
      (2 : Nat) ∈ transitive_neighbors samplePool
        (package_lit_dependency_graph samplePool) 1) :=
  claim_C5_reverse_dependencies samplePool 10 11 2 1 rfl rfl (by decide)
    (by decide) (by
      intro u v hv
      by_cases hu : u = 1
      · subst hu
        simp [package_lit_dependency_graph, samplePool] at hv
        simp [samplePool, hv]
      · simp [package_lit_dependency_graph, samplePool, hu] at hv)

/-! ### Watched-literal invariant preservation through propagate -/

theorem count_addWatch (w : Int → List Nat) (key : Int) (cid x : Nat) (k : Int) :
    ((addWatch w key cid) k).count x =
      (w k).count x + (if k = key then (if x = cid then 1 else 0) else 0) := by
  unfold addWatch updF
  by_cases h : k = key
  · subst h
    by_cases hx : x = cid <;> simp [List.count_append, hx]
  · simp [h]

theorem enqueue_frame (s : Solver) (u : Int) (r : Option Nat) :
    (s.enqueue u r).1.watches = s.watches ∧
    (s.enqueue u r).1.clauses = s.clauses := by
  cases hb : s.assignments u.natAbs <;> simp [Solver.enqueue, hb]

theorem enqueue_failed (s : Solver) (u : Int) (r : Option Nat)
    (h : (s.enqueue u r).2 = false) :
    (s.enqueue u r).1 = s ∧ value u s.assignments = some false := by
  cases hb : s.assignments u.natAbs with
  | none => simp [Solver.enqueue, hb] at h
  | some b =>
    simp only [Solver.enqueue, hb] at h ⊢
    refine ⟨by trivial, ?_⟩
    simp only [beq_eq_false_iff_ne, ne_eq] at h
    by_cases hpos : (0 : Int) < u
    · have hbv : b = false := by
        cases b
        · rfl
        · exact absurd (by simp [hpos]) h
      subst hbv
      simp [value, hb, hpos]
    · have hbv : b = true := by
        cases b
        · exact absurd (by simp [hpos]) h
        · rfl
      subst hbv
      simp [value, hb, hpos]

theorem nodup_count_ite (l : List Nat) (h : l.Nodup) (x : Nat) :
    l.count x = if x ∈ l then 1 else 0 := by
  by_cases hm : x ∈ l
  · rw [if_pos hm]
    exact List.count_eq_one_of_mem h hm
  · rw [if_neg hm]
    exact List.count_eq_zero.mpr hm

theorem getD_set_self (l : List Clause) (i : Nat) (c : Clause)
    (h : i < l.length) : (l.set i c).getD i ⟨[]⟩ = c := by
  rw [List.getD_eq_getElem _ _ (by simpa using h)]
  simp

theorem getD_set_ne (l : List Clause) (i j : Nat) (c : Clause) (h : i ≠ j) :
    (l.set i c).getD j ⟨[]⟩ = l.getD j ⟨[]⟩ := by
  simp [List.getD_eq_getD_get?, List.get?_eq_getElem?, List.getElem?_set_ne h]

theorem swap_perm (m0 m1 w : Int) (pre post : List Int) :
    (w :: m1 :: (pre ++ m0 :: post)).Perm (m0 :: m1 :: (pre ++ w :: post)) := by
  rw [List.perm_iff_count]
  intro a
  simp only [List.count_cons, List.count_append]
  omega

theorem pendstate_congr (s s' : Solver) (p : Int) (pend : List Nat)
    (hw : s'.watches = s.watches) (hc : s'.clauses = s.clauses)
    (hps : PendState s p pend) : PendState s' p pend := by
  unfold PendState ValidW PendClause WClause at hps ⊢
  rw [hw, hc]
  exact hps

theorem watchinv_congr (s s' : Solver)
    (hw : s'.watches = s.watches) (hc : s'.clauses = s.clauses)
    (hps : WatchInv s) : WatchInv s' := by
  unfold WatchInv ValidW WClause at hps ⊢
  rw [hw, hc]
  exact hps

theorem pendstate_reinsert (s : Solver) (p : Int) (cid : Nat) (rest : List Nat)
    (hps : PendState s p (cid :: rest)) (c' : Clause)
    (hperm : c'.lits.Perm (s.clauses.getD cid ⟨[]⟩).lits)
    (hWC : ∀ k : Int, (s.watches k).count cid +
        (if k = -(c'.lits.getD 0 0) then 1 else 0) =
      (if k = -(c'.lits.getD 0 0) then 1 else 0) +
      (if k = -(c'.lits.getD 1 0) then 1 else 0)) :
    PendState { s with clauses := s.clauses.set cid c',
                       watches := addWatch s.watches (-(c'.lits.getD 0 0)) cid }
      p rest := by
  obtain ⟨hvw, hnd, hvalid, hall⟩ := hps
  have hcid_len : cid < s.clauses.length := hvalid cid (List.mem_cons_self cid rest)
  have hcid_rest : cid ∉ rest := (List.nodup_cons.mp hnd).1
  have hrest_nd : rest.Nodup := (List.nodup_cons.mp hnd).2
  obtain ⟨hnodup, hlen2, _, _⟩ :=
    (hall cid hcid_len).1 (List.mem_cons_self cid rest)
  refine ⟨?_, hrest_nd, ?_, ?_⟩
  · intro k x hx
    simp only [List.length_set]
    simp only [addWatch, updF] at hx
    by_cases hk : k = -(c'.lits.getD 0 0)
    · rw [if_pos hk] at hx
      rcases List.mem_append.mp hx with hx | hx
      · exact hvw _ x hx
      · rw [List.mem_singleton] at hx
        subst hx
        exact hcid_len
    · rw [if_neg hk] at hx
      exact hvw k x hx
  · intro x hx
    simp only [List.length_set]
    exact hvalid x (List.mem_cons_of_mem cid hx)
  · intro x hxlen
    simp only [List.length_set] at hxlen
    by_cases hxc : x = cid
    · subst hxc
      refine ⟨fun hmem => absurd hmem hcid_rest, fun _ => ?_⟩
      show WClause _ x ((s.clauses.set x c').getD x ⟨[]⟩)
      rw [getD_set_self _ _ _ hcid_len]
      refine ⟨hperm.nodup_iff.mpr hnodup, hperm.length_eq ▸ hlen2, ?_⟩
      intro k
      show ((addWatch s.watches (-(c'.lits.getD 0 0)) x) k).count x = _
      rw [count_addWatch]
      simp only [if_pos rfl]
      exact hWC k
    · have hgd : (s.clauses.set cid c').getD x ⟨[]⟩ = s.clauses.getD x ⟨[]⟩ :=
        getD_set_ne _ _ _ _ (fun h => hxc h.symm)
      have hcount_same : ∀ k : Int,
          ((addWatch s.watches (-(c'.lits.getD 0 0)) cid) k).count x =
            (s.watches k).count x := by
        intro k
        rw [count_addWatch]
        simp [hxc]
      constructor
      · intro hmem
        obtain ⟨a1, a2, a3, a4⟩ := (hall x hxlen).1 (List.mem_cons_of_mem cid hmem)
        show PendClause _ p x ((s.clauses.set cid c').getD x ⟨[]⟩)
        rw [hgd]
        refine ⟨a1, a2, a3, ?_⟩
        intro k
        show ((addWatch s.watches (-(c'.lits.getD 0 0)) cid) k).count x + _ = _
        rw [hcount_same k]
        exact a4 k
      · intro hmem
        have hx2 : x ∉ cid :: rest := by
          intro hcon
          rcases List.mem_cons.mp hcon with h | h
          · exact hxc h
          · exact hmem h
        obtain ⟨a1, a2, a3⟩ := (hall x hxlen).2 hx2
        show WClause _ x ((s.clauses.set cid c').getD x ⟨[]⟩)
        rw [hgd]
        refine ⟨a1, a2, ?_⟩
        intro k
        show ((addWatch s.watches (-(c'.lits.getD 0 0)) cid) k).count x = _
        rw [hcount_same k]
        exact a3 k

theorem clause_two_lits (c : Clause) (hnodup : c.lits.Nodup)
    (hlen2 : 2 ≤ c.lits.length) :
    ∃ l0 l1 t, c.lits = l0 :: l1 :: t ∧ l0 ≠ l1 := by
  obtain ⟨l0, t0, h0⟩ : ∃ l0 t0, c.lits = l0 :: t0 := by
    cases hc : c.lits with
    | nil => rw [hc] at hlen2; simp at hlen2
    | cons a t => exact ⟨a, t, rfl⟩
  obtain ⟨l1, t1, h1⟩ : ∃ l1 t1, t0 = l1 :: t1 := by
    cases ht : t0 with
    | nil => rw [h0, ht] at hlen2; simp at hlen2
    | cons a t => exact ⟨a, t, rfl⟩
  subst h1
  refine ⟨l0, l1, t1, h0, ?_⟩
  rw [h0] at hnodup
  intro he
  exact (List.nodup_cons.mp hnodup).1 (he ▸ List.mem_cons_self l1 t1)

theorem pendstate_snapshot (s : Solver) (p : Int) (q : List Int)
    (h : WatchInv s) :
    PendState { s with prop_queue := q, watches := updF s.watches p [] } p
      (s.watches p).reverse := by
  obtain ⟨hvw, hall⟩ := h
  have hcount_le : ∀ x : Nat, (s.watches p).count x ≤ 1 := by
    intro x
    by_cases hmem : x ∈ s.watches p
    · have hx_len : x < s.clauses.length := hvw p x hmem
      obtain ⟨hnodup, hlen2, hcnt⟩ := hall x hx_len
      obtain ⟨l0, l1, t, hl, hne⟩ :=
        clause_two_lits (s.clauses.getD x ⟨[]⟩) hnodup hlen2
      rw [hcnt p, hl]
      simp only [List.getD_cons_zero, List.getD_cons_succ]
      by_cases h0 : p = -l0 <;> by_cases h1 : p = -l1
      · exact absurd (neg_injective (h0 ▸ h1)) hne
      · rw [if_pos h0, if_neg h1]
      · rw [if_neg h0, if_pos h1]
      · rw [if_neg h0, if_neg h1]
        omega
    · simp [List.count_eq_zero.mpr hmem]
  have hsnap_nd : (s.watches p).Nodup :=
    List.nodup_iff_count_le_one.mpr hcount_le
  refine ⟨?_, List.nodup_reverse.mpr hsnap_nd, ?_, ?_⟩
  · intro k x hx
    show x < s.clauses.length
    simp only [updF] at hx
    by_cases hk : k = p
    · rw [if_pos hk] at hx
      simp at hx
    · rw [if_neg hk] at hx
      exact hvw k x hx
  · intro x hx
    rw [List.mem_reverse] at hx
    exact hvw p x hx
  · intro x hxlen
    have hxlen' : x < s.clauses.length := hxlen
    constructor
    · intro hmem
      rw [List.mem_reverse] at hmem
      obtain ⟨hnodup, hlen2, hcnt⟩ := hall x hxlen'
      refine ⟨hnodup, hlen2, ?_, ?_⟩
      · obtain ⟨l0, l1, t, hl, hne⟩ :=
          clause_two_lits (s.clauses.getD x ⟨[]⟩) hnodup hlen2
        have hpos : 0 < (s.watches p).count x := List.count_pos_iff.mpr hmem
        have hthis := hcnt p
        rw [hl] at hthis
        rw [hl]
        simp only [List.getD_cons_zero, List.getD_cons_succ] at hthis ⊢
        by_cases h0 : p = -l0
        · exact Or.inl (by rw [h0, neg_neg])
        · by_cases h1 : p = -l1
          · exact Or.inr (by rw [h1, neg_neg])
          · rw [if_neg h0, if_neg h1] at hthis
            omega
      · intro k
        have hone : (s.watches p).count x = 1 :=
          Nat.le_antisymm (hcount_le x) (List.count_pos_iff.mpr hmem)
        show (updF s.watches p ([] : List Nat) k).count x + _ = _
        by_cases hk : k = p
        · have hr := (hcnt p).symm.trans hone
          simp only [updF, if_pos hk, List.count_nil]
          rw [hk, hr]
        · simp only [updF, if_neg hk, List.count_nil]
          rw [hcnt k]
          omega
    · intro hmem
      rw [List.mem_reverse] at hmem
      obtain ⟨hnodup, hlen2, hcnt⟩ := hall x hxlen'
      refine ⟨hnodup, hlen2, ?_⟩
      intro k
      have hzero : (s.watches p).count x = 0 := List.count_eq_zero.mpr hmem
      show (updF s.watches p ([] : List Nat) k).count x = _
      by_cases hk : k = p
      · have hr := (hcnt p).symm.trans hzero
        simp only [updF, if_pos hk, List.count_nil]
        rw [hk, hr]
      · simp only [updF, if_neg hk, List.count_nil]
        exact hcnt k

theorem processWatchers_cons (s : Solver) (p : Int) (cid : Nat)
    (rest : List Nat) :
    s.processWatchers p (cid :: rest) =
      (let c := s.clauses.getD cid ⟨[]⟩
       let cr := c.propagate s.assignments p
       let s1 : Solver := { s with clauses := s.clauses.set cid cr.1 }
       match cr.2 with
       | none =>
         Solver.processWatchers
           { s1 with watches := addWatch s1.watches (-(cr.1.lits.headD 0)) cid }
           p rest
       | some u =>
         let eq := s1.enqueue u (some cid)
         if eq.2 then
           Solver.processWatchers
             { eq.1 with watches := addWatch eq.1.watches p cid } p rest
         else
           ({ eq.1 with
               watches := updF eq.1.watches p
                 (eq.1.watches p ++ rest.reverse ++ [cid]),
               prop_queue := [] }, some cid)) := rfl

theorem count_reappend (w : Int → List Nat) (p : Int) (l : List Nat)
    (x : Nat) (k : Int) :
    ((updF w p (w p ++ l)) k).count x =
      (w k).count x + (if k = p then l.count x else 0) := by
  unfold updF
  by_cases hk : k = p
  · rw [if_pos hk, hk, if_pos rfl, List.count_append]
  · rw [if_neg hk, if_neg hk]
    omega

theorem conflict_final (s : Solver) (p : Int) (cid : Nat) (rest : List Nat)
    (hps : PendState s p (cid :: rest)) (c' : Clause)
    (hperm : c'.lits.Perm (s.clauses.getD cid ⟨[]⟩).lits)
    (hWC : ∀ k : Int, (s.watches k).count cid + (if k = p then 1 else 0) =
      (if k = -(c'.lits.getD 0 0) then 1 else 0) +
      (if k = -(c'.lits.getD 1 0) then 1 else 0)) :
    WatchInv { s with clauses := s.clauses.set cid c',
                      watches := updF s.watches p
                        (s.watches p ++ rest.reverse ++ [cid]),
                      prop_queue := [] } := by
  obtain ⟨hvw, hnd, hvalid, hall⟩ := hps
  have hcid_len : cid < s.clauses.length :=
    hvalid cid (List.mem_cons_self cid rest)
  have hcid_rest : cid ∉ rest := (List.nodup_cons.mp hnd).1
  have hrest_nd : rest.Nodup := (List.nodup_cons.mp hnd).2
  obtain ⟨hnodup, hlen2, _, _⟩ :=
    (hall cid hcid_len).1 (List.mem_cons_self cid rest)
  have happ : s.watches p ++ rest.reverse ++ [cid] =
      s.watches p ++ (rest.reverse ++ [cid]) := List.append_assoc _ _ _
  have hcnt_new : ∀ (x : Nat) (k : Int),
      ((updF s.watches p (s.watches p ++ rest.reverse ++ [cid])) k).count x =
        (s.watches k).count x +
          (if k = p then (rest.reverse ++ [cid]).count x else 0) := by
    intro x k
    rw [happ]
    exact count_reappend s.watches p (rest.reverse ++ [cid]) x k
  have hLcount : ∀ x : Nat, (rest.reverse ++ [cid]).count x =
      (if x ∈ rest then 1 else 0) + (if x = cid then 1 else 0) := by
    intro x
    rw [List.count_append, List.count_reverse, nodup_count_ite rest hrest_nd x]
    by_cases hx : x = cid <;> simp [hx]
  constructor
  · intro k x hx
    show x < (s.clauses.set cid c').length
    rw [List.length_set]
    replace hx : x ∈ (updF s.watches p (s.watches p ++ rest.reverse ++ [cid])) k := hx
    rw [updF] at hx
    by_cases hk : k = p
    · rw [if_pos hk] at hx
      rcases List.mem_append.mp hx with hx | hx
      · rcases List.mem_append.mp hx with hx | hx
        · exact hvw p x hx
        · rw [List.mem_reverse] at hx
          exact hvalid x (List.mem_cons_of_mem cid hx)
      · rw [List.mem_singleton] at hx
        subst hx
        exact hcid_len
    · rw [if_neg hk] at hx
      exact hvw k x hx
  · intro x hxlen
    replace hxlen : x < s.clauses.length := by
      simpa using hxlen
    by_cases hxc : x = cid
    · rw [hxc]
      show WClause _ cid ((s.clauses.set cid c').getD cid ⟨[]⟩)
      rw [getD_set_self _ _ _ hcid_len]
      refine ⟨hperm.nodup_iff.mpr hnodup, hperm.length_eq ▸ hlen2, ?_⟩
      intro k
      show ((updF s.watches p (s.watches p ++ rest.reverse ++ [cid])) k).count cid = _
      rw [hcnt_new cid k, hLcount cid]
      rw [if_neg hcid_rest, if_pos rfl]
      have hthis := hWC k
      by_cases hk : k = p
      · rw [if_pos hk] at hthis ⊢
        omega
      · rw [if_neg hk] at hthis ⊢
        omega
    · show WClause _ x ((s.clauses.set cid c').getD x ⟨[]⟩)
      rw [getD_set_ne _ _ _ _ (fun h => hxc h.symm)]
      by_cases hmem : x ∈ rest
      · obtain ⟨a1, a2, _, a4⟩ :=
          (hall x hxlen).1 (List.mem_cons_of_mem cid hmem)
        refine ⟨a1, a2, ?_⟩
        intro k
        show ((updF s.watches p (s.watches p ++ rest.reverse ++ [cid])) k).count x = _
        rw [hcnt_new x k, hLcount x]
        rw [if_pos hmem, if_neg hxc]
        have hthis := a4 k
        by_cases hk : k = p
        · rw [if_pos hk] at hthis ⊢
          omega
        · rw [if_neg hk] at hthis ⊢
          omega
      · have hx2 : x ∉ cid :: rest := by
          intro hcon
          rcases List.mem_cons.mp hcon with h | h
          · exact hxc h
          · exact hmem h
        obtain ⟨a1, a2, a3⟩ := (hall x hxlen).2 hx2
        refine ⟨a1, a2, ?_⟩
        intro k
        show ((updF s.watches p (s.watches p ++ rest.reverse ++ [cid])) k).count x = _
        rw [hcnt_new x k, hLcount x]
        rw [if_neg hmem, if_neg hxc]
        have hthis := a3 k
        by_cases hk : k = p
        · rw [if_pos hk]
          omega
        · rw [if_neg hk]
          omega

theorem processWatchers_inv (p : Int) :
    ∀ (pend : List Nat) (s : Solver), PendState s p pend →
      ((s.processWatchers p pend).2 = none →
        WatchInv (s.processWatchers p pend).1) ∧
      (∀ cid0, (s.processWatchers p pend).2 = some cid0 →
        WatchInv (s.processWatchers p pend).1 ∧
        (s.processWatchers p pend).1.prop_queue = [] ∧
        cid0 < (s.processWatchers p pend).1.clauses.length ∧
        value (((s.processWatchers p pend).1.clauses.getD cid0 ⟨[]⟩).lits.getD 1 0)
          (s.processWatchers p pend).1.assignments = some false) := by
  intro pend
  induction pend with
  | nil =>
    intro s hps
    obtain ⟨hvw, _, _, hall⟩ := hps
    constructor
    · intro _
      exact ⟨hvw, fun cid hc => (hall cid hc).2 (by simp)⟩
    · intro cid0 h
      simp [Solver.processWatchers] at h
  | cons cid rest ih =>
    intro s hps
    obtain ⟨hvw, hnd, hvalid, hall⟩ := hps
    have hcid_len : cid < s.clauses.length :=
      hvalid cid (List.mem_cons_self cid rest)
    have hcid_rest : cid ∉ rest := (List.nodup_cons.mp hnd).1
    have hrest_nd : rest.Nodup := (List.nodup_cons.mp hnd).2
    obtain ⟨hnodup, hlen2, hkey, hcount⟩ :=
      (hall cid hcid_len).1 (List.mem_cons_self cid rest)
    obtain ⟨l0, l1, rest0, hl, hne⟩ :=
      clause_two_lits (s.clauses.getD cid ⟨[]⟩) hnodup hlen2
    have hkey' : -p = l0 ∨ -p = l1 := by
      rw [hl] at hkey
      simpa using hkey
    obtain ⟨m0, m1, hm0, hmm, hcases⟩ :=
      Clause.propagate_cases (s.clauses.getD cid ⟨[]⟩) s.assignments p
        l0 l1 rest0 hl hkey'
    have hcount' : ∀ k : Int,
        (s.watches k).count cid + (if k = p then 1 else 0) =
          (if k = -m0 then 1 else 0) + (if k = -m1 then 1 else 0) := by
      intro k
      have hthis := hcount k
      rw [hl] at hthis
      simp only [List.getD_cons_zero, List.getD_cons_succ] at hthis
      rcases hmm with ⟨h1, h2⟩ | ⟨h1, h2⟩
      · rw [h1, h2]; exact hthis
      · rw [h1, h2]; omega
    have hpkey : p = -m0 := by rw [hm0, neg_neg]
    have hperm0 : (m0 :: m1 :: rest0).Perm (s.clauses.getD cid ⟨[]⟩).lits := by
      rw [hl]
      rcases hmm with ⟨h1, h2⟩ | ⟨h1, h2⟩
      · rw [h1, h2]
      · rw [h1, h2]
        exact List.Perm.swap l0 l1 rest0
    rw [hpkey] at hcount'
    rcases hcases with ⟨hv, hpr⟩ | ⟨pre, w, post, hsplit, hv, hw, hpre, hpr⟩ |
      ⟨hallf, hv, hpr⟩
    · -- other watch true: clause kept, reinserted on the same list
      have hWC : ∀ k : Int,
          (s.watches k).count cid +
            (if k = -((⟨m0 :: m1 :: rest0⟩ : Clause).lits.getD 0 0)
             then 1 else 0) =
          (if k = -((⟨m0 :: m1 :: rest0⟩ : Clause).lits.getD 0 0)
           then 1 else 0) +
          (if k = -((⟨m0 :: m1 :: rest0⟩ : Clause).lits.getD 1 0)
           then 1 else 0) := by
        intro k
        simp only [List.getD_cons_zero, List.getD_cons_succ]
        exact hcount' k
      have hps2 := pendstate_reinsert s p cid rest ⟨hvw, hnd, hvalid, hall⟩
        ⟨m0 :: m1 :: rest0⟩ hperm0 hWC
      have hred : s.processWatchers p (cid :: rest) =
          Solver.processWatchers
            { s with clauses := s.clauses.set cid (⟨m0 :: m1 :: rest0⟩ : Clause),
                     watches := addWatch s.watches
                       (-((⟨m0 :: m1 :: rest0⟩ : Clause).lits.getD 0 0)) cid }
            p rest := by
        rw [processWatchers_cons]
        simp only [hpr, List.headD_cons, List.getD_cons_zero]
      rw [hred]
      exact ih _ hps2
    · -- swap case: reinserted on the new watch's list
      have hperm1 : (w :: m1 :: (pre ++ m0 :: post)).Perm
          (s.clauses.getD cid ⟨[]⟩).lits := by
        rw [hl, hsplit]
        rcases hmm with ⟨h1, h2⟩ | ⟨h1, h2⟩
        · rw [h1, h2]
          exact swap_perm l0 l1 w pre post
        · rw [h1, h2]
          exact (swap_perm l1 l0 w pre post).trans (List.Perm.swap l0 l1 _)
      have hWC : ∀ k : Int,
          (s.watches k).count cid +
            (if k = -((⟨w :: m1 :: (pre ++ m0 :: post)⟩ : Clause).lits.getD 0 0)
             then 1 else 0) =
          (if k = -((⟨w :: m1 :: (pre ++ m0 :: post)⟩ : Clause).lits.getD 0 0)
           then 1 else 0) +
          (if k = -((⟨w :: m1 :: (pre ++ m0 :: post)⟩ : Clause).lits.getD 1 0)
           then 1 else 0) := by
        intro k
        simp only [List.getD_cons_zero, List.getD_cons_succ]
        have hck := hcount' k
        omega
      have hps2 := pendstate_reinsert s p cid rest ⟨hvw, hnd, hvalid, hall⟩
        ⟨w :: m1 :: (pre ++ m0 :: post)⟩ hperm1 hWC
      have hred : s.processWatchers p (cid :: rest) =
          Solver.processWatchers
            { s with clauses := s.clauses.set cid
                       (⟨w :: m1 :: (pre ++ m0 :: post)⟩ : Clause),
                     watches := addWatch s.watches
                       (-((⟨w :: m1 :: (pre ++ m0 :: post)⟩ : Clause).lits.getD 0 0))
                       cid } p rest := by
        rw [processWatchers_cons]
        simp only [hpr, List.headD_cons, List.getD_cons_zero]
      rw [hred]
      exact ih _ hps2
    · -- unit case
      have hWC : ∀ k : Int,
          (s.watches k).count cid +
            (if k = -((⟨m0 :: m1 :: rest0⟩ : Clause).lits.getD 0 0)
             then 1 else 0) =
          (if k = -((⟨m0 :: m1 :: rest0⟩ : Clause).lits.getD 0 0)
           then 1 else 0) +
          (if k = -((⟨m0 :: m1 :: rest0⟩ : Clause).lits.getD 1 0)
           then 1 else 0) := by
        intro k
        simp only [List.getD_cons_zero, List.getD_cons_succ]
        exact hcount' k
      have hWCp : ∀ k : Int,
          (s.watches k).count cid + (if k = p then 1 else 0) =
          (if k = -((⟨m0 :: m1 :: rest0⟩ : Clause).lits.getD 0 0)
           then 1 else 0) +
          (if k = -((⟨m0 :: m1 :: rest0⟩ : Clause).lits.getD 1 0)
           then 1 else 0) := by
        intro k
        simp only [List.getD_cons_zero, List.getD_cons_succ]
        rw [hpkey]
        exact hcount' k
      rw [processWatchers_cons]
      simp only [hpr]
      cases henq : (Solver.enqueue
          { s with clauses := s.clauses.set cid (⟨m0 :: m1 :: rest0⟩ : Clause) }
          m1 (some cid)).2 with
      | true =>
        simp only [henq, if_true]
        have hfr := enqueue_frame
          ({ s with clauses :=
              s.clauses.set cid (⟨m0 :: m1 :: rest0⟩ : Clause) } : Solver)
          m1 (some cid)
        refine ih _ (pendstate_congr _ _ p rest ?_ ?_
          (pendstate_reinsert s p cid rest ⟨hvw, hnd, hvalid, hall⟩
            (⟨m0 :: m1 :: rest0⟩ : Clause) hperm0 hWC))
        · show addWatch (Solver.enqueue
              { s with clauses :=
                  s.clauses.set cid (⟨m0 :: m1 :: rest0⟩ : Clause) }
              m1 (some cid)).1.watches p cid =
            addWatch s.watches
              (-((⟨m0 :: m1 :: rest0⟩ : Clause).lits.getD 0 0)) cid
          rw [hfr.1]
          show addWatch s.watches p cid = _
          rw [hpkey]
          rfl
        · show (Solver.enqueue
              { s with clauses :=
                  s.clauses.set cid (⟨m0 :: m1 :: rest0⟩ : Clause) }
              m1 (some cid)).1.clauses =
            s.clauses.set cid (⟨m0 :: m1 :: rest0⟩ : Clause)
          rw [hfr.2]
      | false =>
        have hfail := enqueue_failed
          ({ s with clauses :=
              s.clauses.set cid (⟨m0 :: m1 :: rest0⟩ : Clause) } : Solver)
          m1 (some cid) henq
        simp only [henq, Bool.false_eq_true, if_false]
        constructor
        · intro habs
          simp at habs
        · intro cid0 hc
          have hc0 : cid = cid0 := by simpa using hc
          rw [hfail.1]
          refine ⟨?_, by trivial, ?_, ?_⟩
          · exact conflict_final s p cid rest ⟨hvw, hnd, hvalid, hall⟩
              (⟨m0 :: m1 :: rest0⟩ : Clause) hperm0 hWCp
          · rw [← hc0]
            show cid < (s.clauses.set cid (⟨m0 :: m1 :: rest0⟩ : Clause)).length
            rw [List.length_set]
            exact hcid_len
          · rw [← hc0]
            have hgd : (s.clauses.set cid
                (⟨m0 :: m1 :: rest0⟩ : Clause)).getD cid ⟨[]⟩ =
                ⟨m0 :: m1 :: rest0⟩ := getD_set_self _ _ _ hcid_len
            show value (((s.clauses.set cid
                (⟨m0 :: m1 :: rest0⟩ : Clause)).getD cid ⟨[]⟩).lits.getD 1 0)
              s.assignments = some false
            rw [hgd]
            exact hfail.2

theorem propagateAux_succ (s : Solver) (fuel : Nat) :
    s.propagateAux (fuel + 1) =
      (match s.prop_queue with
       | [] => (s, none)
       | p :: q =>
         let ws := s.watches p
         let s1 : Solver :=
           { s with prop_queue := q, watches := updF s.watches p [] }
         match Solver.processWatchers s1 p ws.reverse with
         | (s2, some cid) => (s2, some cid)
         | (s2, none) => Solver.propagateAux s2 fuel) := rfl

theorem propagateAux_inv : ∀ (fuel : Nat) (s : Solver), WatchInv s →
    WatchInv (s.propagateAux fuel).1 ∧
    (∀ cid, (s.propagateAux fuel).2 = some cid →
      (s.propagateAux fuel).1.prop_queue = [] ∧
      cid < (s.propagateAux fuel).1.clauses.length ∧
      value (((s.propagateAux fuel).1.clauses.getD cid ⟨[]⟩).lits.getD 1 0)
        (s.propagateAux fuel).1.assignments = some false) := by
  intro fuel
  induction fuel with
  | zero =>
    intro s h
    exact ⟨h, fun cid hc => by simp [Solver.propagateAux] at hc⟩
  | succ fuel ih =>
    intro s h
    cases hq : s.prop_queue with
    | nil =>
      rw [propagateAux_succ s fuel]
      simp only [hq]
      exact ⟨h, fun cid hc => by simp at hc⟩
    | cons p q =>
      rw [propagateAux_succ s fuel]
      simp only [hq]
      have hps := pendstate_snapshot s p q h
      have hpi := processWatchers_inv p (s.watches p).reverse
        { s with prop_queue := q, watches := updF s.watches p [] } hps
      rcases hpw : Solver.processWatchers
          { s with prop_queue := q, watches := updF s.watches p [] } p
          (s.watches p).reverse with ⟨s2, r⟩
      rw [hpw] at hpi
      cases r with
      | some cid =>
        simp only [hpw]
        obtain ⟨hw2, hq2, hlen2, hval2⟩ := hpi.2 cid rfl
        refine ⟨hw2, ?_⟩
        intro cid0 hcc
        have : cid = cid0 := by simpa using hcc
        subst this
        exact ⟨hq2, hlen2, hval2⟩
      | none =>
        simp only [hpw]
        exact ih s2 (hpi.1 rfl)

/-- C2: during propagate, when a watching clause yields a unit literal whose
enqueue fails, propagate drains the queue and returns that clause as the
conflict, and the watch index stays consistent: starting from any state
satisfying the watch invariant, if propagateAux returns a conflict then the
final state still has every clause on exactly the watch lists of its two
watched literals' negations, the propagation queue is empty, the returned id
denotes a stored clause, and its position-1 literal (the failed unit) is
assigned False. -/
theorem claim_C2_propagate_conflict (s : Solver) (fuel : Nat) (s' : Solver)
    (cid : Nat) (hInv : WatchInv s)
    (h : s.propagateAux fuel = (s', some cid)) :
    WatchInv s' ∧ s'.prop_queue = [] ∧ cid < s'.clauses.length ∧
    value ((s'.clauses.getD cid ⟨[]⟩).lits.getD 1 0) s'.assignments =
      some false := by
  have hpi := propagateAux_inv fuel s hInv
  rw [h] at hpi
  obtain ⟨hw, hrest⟩ := hpi
  obtain ⟨h1, h2, h3⟩ := hrest cid rfl
  exact ⟨hw, h1, h2, h3⟩

theorem mem_addWatch (w : Int → List Nat) (key k : Int) (cid x : Nat)
    (hx : x ∈ (addWatch w key cid) k) : x ∈ w k ∨ x = cid := by
  unfold addWatch updF at hx
  by_cases hk : k = key
  · rw [if_pos hk] at hx
    rcases List.mem_append.mp hx with hx | hx
    · left
      rw [hk]
      exact hx
    · right
      simpa using hx
  · rw [if_neg hk] at hx
    exact Or.inl hx

theorem watchInv_init : WatchInv initSolver := by
  constructor
  · intro k cid hc
    simp [initSolver] at hc
  · intro cid hc
    simp [initSolver] at hc

theorem watchInv_add_clause (s : Solver) (c : Clause) (hnd : c.lits.Nodup)
    (h : WatchInv s) : WatchInv (s.add_clause c) := by
  obtain ⟨hvw, hall⟩ := h
  match hls : c.lits with
  | [] =>
    refine watchinv_congr s _ ?_ ?_ ⟨hvw, hall⟩ <;>
      simp [Solver.add_clause, hls]
  | [l] =>
    have hfr := enqueue_frame s l none
    refine watchinv_congr s _ ?_ ?_ ⟨hvw, hall⟩ <;>
      simp [Solver.add_clause, hls, hfr.1, hfr.2]
  | l0 :: l1 :: t =>
    have hred : s.add_clause c =
        { s with clauses := s.clauses ++ [c],
                 watches := addWatch (addWatch s.watches (-l0) s.clauses.length)
                   (-l1) s.clauses.length } := by
      rw [Solver.add_clause, hls]
    rw [hred]
    have hfresh : ∀ k : Int, (s.watches k).count s.clauses.length = 0 := by
      intro k
      rw [List.count_eq_zero]
      intro hmem
      exact absurd (hvw k _ hmem) (Nat.lt_irrefl _)
    constructor
    · intro k x hx
      show x < (s.clauses ++ [c]).length
      simp only [List.length_append, List.length_cons, List.length_nil]
      replace hx : x ∈ (addWatch (addWatch s.watches (-l0) s.clauses.length)
          (-l1) s.clauses.length) k := hx
      rcases mem_addWatch _ _ _ _ _ hx with hx1 | hx1
      · rcases mem_addWatch _ _ _ _ _ hx1 with hx2 | hx2
        · have := hvw k x hx2
          omega
        · omega
      · omega
    · intro x hxlen
      replace hxlen : x < s.clauses.length + 1 := by
        simpa [List.length_append] using hxlen
      have hcnt : ∀ k : Int,
          ((addWatch (addWatch s.watches (-l0) s.clauses.length)
              (-l1) s.clauses.length) k).count x =
            (s.watches k).count x +
              (if k = -l0 then (if x = s.clauses.length then 1 else 0) else 0) +
              (if k = -l1 then (if x = s.clauses.length then 1 else 0) else 0) := by
        intro k
        rw [count_addWatch, count_addWatch]
      by_cases hxc : x = s.clauses.length
      · have hgd : ((s.clauses ++ [c]).getD x ⟨[]⟩) = c := by
          rw [hxc]
          rw [List.getD_eq_getElem _ _ (by simp)]
          simp
        show WClause _ x ((s.clauses ++ [c]).getD x ⟨[]⟩)
        rw [hgd]
        refine ⟨hnd, by rw [hls]; simp, ?_⟩
        intro k
        show ((addWatch (addWatch s.watches (-l0) s.clauses.length)
            (-l1) s.clauses.length) k).count x = _
        rw [hcnt k, hxc, hfresh k]
        rw [hls]
        simp only [List.getD_cons_zero, List.getD_cons_succ,
          eq_self_iff_true, if_true]
        omega
      · have hxlt : x < s.clauses.length := by omega
        have hgd : ((s.clauses ++ [c]).getD x ⟨[]⟩) = s.clauses.getD x ⟨[]⟩ :=
          List.getD_append _ _ _ _ hxlt
        show WClause _ x ((s.clauses ++ [c]).getD x ⟨[]⟩)
        rw [hgd]
        obtain ⟨a1, a2, a3⟩ := hall x hxlt
        refine ⟨a1, a2, ?_⟩
        intro k
        show ((addWatch (addWatch s.watches (-l0) s.clauses.length)
            (-l1) s.clauses.length) k).count x = _
        rw [hcnt k]
        have := a3 k
        simp only [if_neg hxc, ite_self]
        omega

theorem watchInv_conflictFixture : WatchInv conflictFixture :=
  watchinv_congr _ _ rfl rfl
    (watchInv_add_clause _ ⟨[-1, 2, 3, 4]⟩ (by decide)
      (watchInv_add_clause _ ⟨[-1, 2]⟩ (by decide) watchInv_init))

theorem claim_C2_witness :
    WatchInv conflictFixture ∧
    (WatchInv (conflictFixture.propagateAux 8).1 ∧
     (conflictFixture.propagateAux 8).1.prop_queue = [] ∧
     0 < (conflictFixture.propagateAux 8).1.clauses.length ∧
     value (((conflictFixture.propagateAux 8).1.clauses.getD 0
         ⟨[]⟩).lits.getD 1 0)
       (conflictFixture.propagateAux 8).1.assignments = some false) :=
  ⟨watchInv_conflictFixture,
   claim_C2_propagate_conflict conflictFixture 8 _ 0 watchInv_conflictFixture
     (by
       have h2 : (conflictFixture.propagateAux 8).2 = some 0 := by decide
       calc conflictFixture.propagateAux 8
           = ((conflictFixture.propagateAux 8).1,
              (conflictFixture.propagateAux 8).2) := rfl
         _ = ((conflictFixture.propagateAux 8).1, some 0) := by rw [h2])⟩

end SimpleSat
